import Mathlib

/-
A shallow embedding of the FM-index query engine of
`src/nvbio/fmindex/fmindex_inl.h`, together with theorems about its query
operations: `rank`, `rank4`, `match`, `match_reverse`, `basic_inv_psi`,
`inv_psi`, `locate`, `locate_ssa_iterator` and `lookup_ssa_iterator`.

Logical row indices (the C++ `index_type`, an unsigned integer where the
value `index_type(-1)` serves as a one-before-start sentinel) are embedded
as `ℤ`, with the sentinel written literally as `-1`; all indices handled by
the algorithms live in `[-1, length]`, where the two representations agree.
Symbols (the C++ `uint8`) are embedded as `ℕ`.
-/

set_option linter.unusedVariables false

namespace nvbio

/-- Pair of logical BWT row indices (the C++ `range_type`, built with
`make_vector(x, y)`); `x > y` denotes an empty range. -/
structure Range where
  x : ℤ
  y : ℤ
  deriving DecidableEq

/-- Four per-symbol counters (the C++ `vec4_type`, e.g. a `uint4`). -/
structure Vec4 where
  x : ℤ
  y : ℤ
  z : ℤ
  w : ℤ
  deriving DecidableEq

/-- The rank dictionary, i.e. the template parameter `TRankDictionary` of
`fm_index`.  From the point of view of `fmindex_inl.h` its operations are
abstract: `rank d k c` embeds the C++ call `rank(dict, k, c)` and
`rank4 d k` embeds `rank4(dict, k)`. -/
structure RankDictionary where
  rank : ℤ → ℕ → ℤ
  rank4 : ℤ → Vec4

/-- Modelled from the spec: the two-endpoint dictionary rank
`rank(dict, range, c)` called by the FM-index range wrapper.  The concrete
rank-dictionary implementation (`rank_dictionary.h`) is not among the
sources here; per the spec the two-endpoint form returns the two
single-endpoint ranks, `low` taken at `range.x` and `high` at `range.y`. -/
def RankDictionary.rankRange (d : RankDictionary) (r : Range) (c : ℕ) : Range :=
  ⟨d.rank r.x c, d.rank r.y c⟩

/-- The sampled suffix array, i.e. the template parameter `TSuffixArray` of
`fm_index`.  The C++ `sa.fetch(i, r)` returns a success flag and stores the
fetched coordinate in `r`; it is embedded as the pair `fetchOk` / `fetchVal`,
and `has i` embeds the predicate `sa.has(i)`. -/
structure SuffixArray where
  has : ℤ → Bool
  fetchOk : ℤ → Bool
  fetchVal : ℤ → ℤ

/-- The FM-index aggregate.  The fields embed the accessors `length()`,
`primary()`, `L2(c)`, `count(c)`, `rank_dict()`, `sa()` and `bwt()` used by
the query functions of `fmindex_inl.h`; `bwt k` is the symbol stored at
physical position `k` of the BWT array. -/
structure fm_index where
  length : ℤ
  primary : ℤ
  L2 : ℕ → ℤ
  count : ℕ → ℤ
  rank_dict : RankDictionary
  sa : SuffixArray
  bwt : ℤ → ℕ

/-- Embeds `rank(fmi, k, c)` (fmindex_inl.h, lines 31-47): the number of
occurrences of `c` in the conceptual row range `[0, k]`. -/
def rank (fmi : fm_index) (k : ℤ) (c : ℕ) : ℤ :=
  if k = -1 then 0
  else if k = fmi.length then fmi.count c
  else if fmi.primary ≤ k then fmi.rank_dict.rank (k - 1) c
  else fmi.rank_dict.rank k c

/-- Embeds the range overload `rank(fmi, range, c)` (fmindex_inl.h,
lines 60-88). -/
def rank2 (fmi : fm_index) (r : Range) (c : ℕ) : Range :=
  if r.x = r.y then ⟨rank fmi r.x c, rank fmi r.x c⟩
  else if r.x = -1 then ⟨0, rank fmi r.y c⟩
  else if r.y = fmi.length then ⟨rank fmi r.x c, fmi.count c⟩
  else
    fmi.rank_dict.rankRange
      ⟨if fmi.primary ≤ r.x then r.x - 1 else r.x,
       if fmi.primary ≤ r.y then r.y - 1 else r.y⟩ c

/-- Embeds `rank4(fmi, k)` (fmindex_inl.h, lines 100-123): the ranks of all
four alphabet symbols at `k`. -/
def rank4 (fmi : fm_index) (k : ℤ) : Vec4 :=
  if k = -1 then ⟨0, 0, 0, 0⟩
  else if k = fmi.length then ⟨fmi.count 0, fmi.count 1, fmi.count 2, fmi.count 3⟩
  else if fmi.primary ≤ k then fmi.rank_dict.rank4 (k - 1)
  else fmi.rank_dict.rank4 k

/-- The backward-search loop of `match(fmi, pattern, pattern_len, in_range)`
(fmindex_inl.h, lines 224-237): the counter `i + 1` means that index `i` of
the pattern is the next to be processed, scanning down to index `0`. -/
def matchAux (fmi : fm_index) (pattern : ℕ → ℕ) : ℕ → Range → Range
  | 0, range => range
  | i + 1, range =>
    if range.x ≤ range.y then
      if 3 < pattern i then ⟨1, 0⟩
      else
        matchAux fmi pattern i
          ⟨fmi.L2 (pattern i) + (rank2 fmi ⟨range.x - 1, range.y⟩ (pattern i)).x + 1,
           fmi.L2 (pattern i) + (rank2 fmi ⟨range.x - 1, range.y⟩ (pattern i)).y⟩
    else range

/-- Embeds `match(fmi, pattern, pattern_len, in_range)` (fmindex_inl.h,
lines 212-239): backward search starting from `in_range`. -/
def fm_match (fmi : fm_index) (pattern : ℕ → ℕ) (pattern_len : ℕ)
    (in_range : Range) : Range :=
  matchAux fmi pattern pattern_len in_range

/-- Embeds the overload `match(fmi, pattern, pattern_len)` (fmindex_inl.h,
lines 186-198), which starts from the full range `[0, length]`. -/
def fm_match0 (fmi : fm_index) (pattern : ℕ → ℕ) (pattern_len : ℕ) : Range :=
  fm_match fmi pattern pattern_len ⟨0, fmi.length⟩

/-- The forward-search loop of `match_reverse` (fmindex_inl.h,
lines 263-276): `i` is the next pattern index to be processed and the second
argument is the number of indices left to process. -/
def match_reverseAux (fmi : fm_index) (pattern : ℕ → ℕ) : ℕ → ℕ → Range → Range
  | _, 0, range => range
  | i, fuel + 1, range =>
    if range.x ≤ range.y then
      if 3 < pattern i then ⟨1, 0⟩
      else
        match_reverseAux fmi pattern (i + 1) fuel
          ⟨fmi.L2 (pattern i) + (rank2 fmi ⟨range.x - 1, range.y⟩ (pattern i)).x + 1,
           fmi.L2 (pattern i) + (rank2 fmi ⟨range.x - 1, range.y⟩ (pattern i)).y⟩
    else range

/-- Embeds `match_reverse(fmi, pattern, pattern_len)` (fmindex_inl.h,
lines 252-278): forward scan of the pattern from the full range. -/
def match_reverse (fmi : fm_index) (pattern : ℕ → ℕ) (pattern_len : ℕ) : Range :=
  match_reverseAux fmi pattern 0 pattern_len ⟨0, fmi.length⟩

/-- Embeds `basic_inv_psi(fmi, i)` (fmindex_inl.h, lines 290-309): one
LF-mapping step, computed with the dictionary rank at the sentinel-adjusted
position. -/
def basic_inv_psi (fmi : fm_index) (i : ℤ) : ℤ :=
  if i = fmi.primary then 0
  else
    fmi.L2 (fmi.bwt (if i < fmi.primary then i else i - 1)) +
      fmi.rank_dict.rank (if i < fmi.primary then i else i - 1)
        (fmi.bwt (if i < fmi.primary then i else i - 1))

/-- The shared loop body of `locate` / `inv_psi` / `locate_ssa_iterator`
(fmindex_inl.h, lines 380-392): one step of the LF-mapping walk, using the
FM-index level `rank` at the unadjusted position `j`. -/
def lfStep (fmi : fm_index) (j : ℤ) : ℤ :=
  if j = fmi.primary then 0
  else
    fmi.L2 (if j < fmi.primary then fmi.bwt j else fmi.bwt (j - 1)) +
      rank fmi j (if j < fmi.primary then fmi.bwt j else fmi.bwt (j - 1))

/-- The LF-mapping walk: iterate `lfStep` until `stop` holds, returning the
stopping position and the number of steps taken, or `none` if `stop` is not
reached within the given number of iterations (the C++ loops are unbounded
`while` loops; the extra counter makes the embedding total). -/
def lfWalk (fmi : fm_index) (stop : ℤ → Bool) : ℕ → ℤ → Option Range
  | 0, j => if stop j then some ⟨j, 0⟩ else none
  | fuel + 1, j =>
    if stop j then some ⟨j, 0⟩
    else (lfWalk fmi stop fuel (lfStep fmi j)).map fun r => ⟨r.x, r.y + 1⟩

/-- Embeds `inv_psi(fmi, i)` (fmindex_inl.h, lines 321-351): walk until
`sa.fetch` succeeds, returning the stopping row and the step count. -/
def inv_psi (fmi : fm_index) (fuel : ℕ) (i : ℤ) : Option Range :=
  lfWalk fmi (fun j => fmi.sa.fetchOk j) fuel i

/-- Embeds `locate(fmi, i)` (fmindex_inl.h, lines 364-394): walk until
`sa.fetch` succeeds, then return the fetched coordinate plus the step
count. -/
def locate (fmi : fm_index) (fuel : ℕ) (i : ℤ) : Option ℤ :=
  (lfWalk fmi (fun j => fmi.sa.fetchOk j) fuel i).map fun r =>
    fmi.sa.fetchVal r.x + r.y

/-- Embeds `locate_ssa_iterator(fmi, i)` (fmindex_inl.h, lines 408-437):
the same walk but stopping on the `sa.has` predicate instead of `fetch`. -/
def locate_ssa_iterator (fmi : fm_index) (fuel : ℕ) (i : ℤ) : Option Range :=
  lfWalk fmi (fun j => fmi.sa.has j) fuel i

/-- Embeds `lookup_ssa_iterator(fmi, it)` (fmindex_inl.h, lines 449-460):
one fetch at `it.x` plus the offset `it.y`. -/
def lookup_ssa_iterator (fmi : fm_index) (it : Range) : ℤ :=
  fmi.sa.fetchVal it.x + it.y

/-- The sentinel-adjusted physical position actually queried by
`rank fmi k c` for a logical index `k` in `[-1, length]`: `-1` stays `-1`
(rank zero), `length` maps to the last physical slot `length - 1`, and
otherwise the position is decremented exactly when `k ≥ primary`. -/
def adjF (fmi : fm_index) (k : ℤ) : ℤ :=
  if k = -1 then -1
  else if k = fmi.length then fmi.length - 1
  else if fmi.primary ≤ k then k - 1 else k

/-- A trivial concrete rank dictionary, used to instantiate the abstract
interface in concrete evaluations. -/
def d0 : RankDictionary :=
  { rank := fun _ _ => 0
    rank4 := fun _ => ⟨0, 0, 0, 0⟩ }

/-- A concrete sampled suffix array with row `0` sampled at coordinate 5. -/
def sa0 : SuffixArray :=
  { has := fun j => j == 0
    fetchOk := fun j => j == 0
    fetchVal := fun _ => 5 }

/-- A concrete FM-index of length 2 (two symbols `0`, no others), used for
concrete evaluations of the query functions. -/
def fmi0 : fm_index :=
  { length := 2
    primary := 1
    L2 := fun c => if c = 0 then 0 else 2
    count := fun c => if c = 0 then 2 else 0
    rank_dict := d0
    sa := sa0
    bwt := fun _ => 0 }

/-- A concrete FM-index whose rank dictionary reports every count as 1,
giving a strictly positive LF-mapping step away from the primary row. -/
def fmi1 : fm_index :=
  { length := 2
    primary := 1
    L2 := fun _ => 0
    count := fun _ => 1
    rank_dict :=
      { rank := fun _ _ => 1
        rank4 := fun _ => ⟨1, 1, 1, 1⟩ }
    sa := sa0
    bwt := fun _ => 0 }

/-- For indices in `[-1, length]`, the FM-index `rank` is the dictionary
rank taken at the sentinel-adjusted position `adjF`, provided the dictionary
is zero at `-1` and `count c` is the dictionary total for `c`. -/
lemma rank_eq_rank_adjF (fmi : fm_index) (c : ℕ)
    (hzero : fmi.rank_dict.rank (-1) c = 0)
    (hcount : fmi.count c = fmi.rank_dict.rank (fmi.length - 1) c)
    (k : ℤ) :
    rank fmi k c = fmi.rank_dict.rank (adjF fmi k) c := by
  unfold rank adjF
  split_ifs
  · exact hzero.symm
  · exact hcount
  · rfl
  · rfl

/-- The sentinel adjustment is monotone on the logical index space
`[-1, length]`. -/
lemma adjF_mono (fmi : fm_index) (k1 k2 : ℤ)
    (h1 : -1 ≤ k1) (h12 : k1 ≤ k2) (h2 : k2 ≤ fmi.length) :
    adjF fmi k1 ≤ adjF fmi k2 := by
  unfold adjF; split_ifs <;> omega

/-- C2: for every FM-index `fmi` and symbol `c`, `rank fmi (-1) c = 0`;
`rank fmi fmi.length c = fmi.count c` with no dictionary call; and for every
`k` with `0 ≤ k < fmi.length` the result is the rank-dictionary rank taken
at `k - 1` when `k ≥ primary` and at `k` otherwise. -/
theorem C2_rank_edge_cases (fmi : fm_index) (c : ℕ) (k : ℤ)
    (hL : 0 ≤ fmi.length) (hk0 : 0 ≤ k) (hkL : k < fmi.length) :
    rank fmi (-1) c = 0 ∧
    rank fmi fmi.length c = fmi.count c ∧
    rank fmi k c =
      (if fmi.primary ≤ k then fmi.rank_dict.rank (k - 1) c
       else fmi.rank_dict.rank k c) := by
  refine ⟨by simp [rank], ?_, ?_⟩
  · unfold rank
    split_ifs <;> first | rfl | (exfalso; omega)
  · unfold rank
    split_ifs <;> first | rfl | (exfalso; omega)

theorem C2_rank_edge_cases_witness :
    rank fmi0 (-1) 0 = 0 ∧
    rank fmi0 fmi0.length 0 = fmi0.count 0 ∧
    rank fmi0 1 0 =
      (if fmi0.primary ≤ 1 then fmi0.rank_dict.rank (1 - 1) 0
       else fmi0.rank_dict.rank 1 0) :=
  C2_rank_edge_cases fmi0 0 1 (by decide) (by decide) (by decide)

/-- C3: for every FM-index and every valid `k` (`k = -1`, `k = length`, or
`0 ≤ k < length`), `rank4 fmi k` is the 4-tuple of the single-symbol ranks
at `k`, under the hypothesis that the underlying dictionary's `rank4`
agrees pointwise with its `rank`. -/
theorem C3_rank4_consistency (fmi : fm_index) (k : ℤ)
    (h4 : ∀ j : ℤ, fmi.rank_dict.rank4 j =
      ⟨fmi.rank_dict.rank j 0, fmi.rank_dict.rank j 1,
       fmi.rank_dict.rank j 2, fmi.rank_dict.rank j 3⟩)
    (hk : k = -1 ∨ k = fmi.length ∨ (0 ≤ k ∧ k < fmi.length)) :
    rank4 fmi k = ⟨rank fmi k 0, rank fmi k 1, rank fmi k 2, rank fmi k 3⟩ := by
  rcases hk with h | h | ⟨h0, hL⟩
  · subst h; simp [rank4, rank]
  · subst h
    by_cases hneg : fmi.length = -1
    · simp [rank4, rank, hneg]
    · simp [rank4, rank, hneg]
  · have h1 : k ≠ -1 := by omega
    have h2 : k ≠ fmi.length := by omega
    simp only [rank4, rank, h1, h2, if_false]
    split_ifs with hp
    · exact h4 _
    · exact h4 _

theorem C3_rank4_consistency_witness :
    rank4 fmi0 1 = ⟨rank fmi0 1 0, rank fmi0 1 1, rank fmi0 1 2, rank fmi0 1 3⟩ :=
  C3_rank4_consistency fmi0 1 (fun j => rfl) (Or.inr (Or.inr ⟨by decide, by decide⟩))

/-- C7: backward search preserves emptiness — for every FM-index, pattern
and starting range with `x > y`, `match` returns a range with `x > y` (the
loop short-circuits, so an empty range is never resurrected). -/
theorem C7_match_preserves_empty (fmi : fm_index) (pattern : ℕ → ℕ) (len : ℕ)
    (in_range : Range) (h : in_range.y < in_range.x) :
    (fm_match fmi pattern len in_range).y < (fm_match fmi pattern len in_range).x := by
  have hx : ¬ in_range.x ≤ in_range.y := by omega
  cases len with
  | zero => simpa [fm_match, matchAux] using h
  | succ n => simpa [fm_match, matchAux, hx] using h

theorem C7_match_preserves_empty_witness :
    (fm_match fmi0 (fun _ => 0) 3 ⟨5, 2⟩).y < (fm_match fmi0 (fun _ => 0) 3 ⟨5, 2⟩).x :=
  C7_match_preserves_empty fmi0 (fun _ => 0) 3 ⟨5, 2⟩ (by decide)

/-- C10: `match` with `len = 0` or an already-empty starting range returns
the starting range itself, untouched (the loop body, including the
out-of-alphabet check, never runs), and the default-range overload with
`len = 0` returns the full range `(0, length)`. -/
theorem C10_match_trivial_cases (fmi : fm_index) (pattern : ℕ → ℕ) (len : ℕ)
    (r1 r2 : Range) (h : r2.y < r2.x) :
    fm_match fmi pattern 0 r1 = r1 ∧
    fm_match fmi pattern len r2 = r2 ∧
    fm_match0 fmi pattern 0 = ⟨0, fmi.length⟩ := by
  have hx : ¬ r2.x ≤ r2.y := by omega
  refine ⟨rfl, ?_, rfl⟩
  cases len with
  | zero => rfl
  | succ n => simp [fm_match, matchAux, hx]

theorem C10_match_trivial_cases_witness :
    fm_match fmi0 (fun _ => 4) 0 ⟨0, 2⟩ = ⟨0, 2⟩ ∧
    fm_match fmi0 (fun _ => 4) 5 ⟨3, 2⟩ = ⟨3, 2⟩ ∧
    fm_match0 fmi0 (fun _ => 4) 0 = ⟨0, fmi0.length⟩ :=
  C10_match_trivial_cases fmi0 (fun _ => 4) 5 ⟨0, 2⟩ ⟨3, 2⟩ (by decide)

/-- C4: if the sampled suffix array's `has` predicate holds exactly when its
`fetch` succeeds, then whenever the search phase `locate_ssa_iterator`
reaches a sampled position within the given number of steps, the resolve
phase `lookup_ssa_iterator` applied to its result computes exactly what the
one-shot `locate` computes. -/
theorem C4_locate_split_pipeline (fmi : fm_index) (fuel : ℕ) (i : ℤ) (it : Range)
    (hsa : ∀ j : ℤ, fmi.sa.has j = fmi.sa.fetchOk j)
    (hi : i ≤ fmi.length)
    (hfind : locate_ssa_iterator fmi fuel i = some it) :
    locate fmi fuel i = some (lookup_ssa_iterator fmi it) := by
  have hstop : (fun j => fmi.sa.has j) = (fun j => fmi.sa.fetchOk j) := funext hsa
  unfold locate lookup_ssa_iterator
  unfold locate_ssa_iterator at hfind
  rw [← hstop, hfind]
  rfl

theorem C4_locate_split_pipeline_witness :
    locate fmi0 0 0 = some (lookup_ssa_iterator fmi0 ⟨0, 0⟩) :=
  C4_locate_split_pipeline fmi0 0 0 ⟨0, 0⟩ (fun j => rfl) (by decide) (by decide)

/-- C6: `basic_inv_psi fmi i = 0` exactly when `i = primary`, for a
well-formed index: `primary ∈ [0, length]`, `i ∈ [0, length]`, the `L2`
table is nonnegative and the dictionary rank of the symbol `bwt k` over
`[0, k]` is at least 1 for every physical position `k`. -/
theorem C6_basic_inv_psi_zero_iff_primary (fmi : fm_index) (i : ℤ)
    (hp0 : 0 ≤ fmi.primary) (hpL : fmi.primary ≤ fmi.length)
    (hi0 : 0 ≤ i) (hiL : i ≤ fmi.length)
    (hL2 : ∀ c : ℕ, 0 ≤ fmi.L2 c)
    (hrk : ∀ k : ℤ, 0 ≤ k → k < fmi.length →
      1 ≤ fmi.rank_dict.rank k (fmi.bwt k)) :
    basic_inv_psi fmi i = 0 ↔ i = fmi.primary := by
  constructor
  · intro h
    by_contra hne
    unfold basic_inv_psi at h
    rw [if_neg hne] at h
    by_cases hlt : i < fmi.primary
    · rw [if_pos hlt] at h
      have ha := hrk i hi0 (by omega)
      have hb := hL2 (fmi.bwt i)
      omega
    · rw [if_neg hlt] at h
      have ha := hrk (i - 1) (by omega) (by omega)
      have hb := hL2 (fmi.bwt (i - 1))
      omega
  · intro h
    unfold basic_inv_psi
    rw [if_pos h]

theorem C6_basic_inv_psi_zero_iff_primary_witness :
    basic_inv_psi fmi1 1 = 0 ↔ (1 : ℤ) = fmi1.primary :=
  C6_basic_inv_psi_zero_iff_primary fmi1 1 (by decide) (by decide) (by decide)
    (by decide) (fun c => le_refl 0) (fun k h1 h2 => le_refl 1)

/-- C8: the FM-index range-rank wrapper collapses a degenerate point range
`x = y` to a single rank replicated on both ends, collapses a left-open
range `x = -1` to `(0, rank y)`, and in the generic in-bounds case returns
the pair of single-endpoint ranks, each with the sentinel adjustment
applied exactly once. -/
theorem C8_rank_range_wrapper (fmi : fm_index) (c : ℕ) (r1 r2 r3 : Range)
    (h1 : r1.x = r1.y) (h2 : r2.x = -1)
    (h3x0 : 0 ≤ r3.x) (h3xL : r3.x < fmi.length)
    (h3y0 : 0 ≤ r3.y) (h3yL : r3.y ≤ fmi.length) (h3xy : r3.x ≠ r3.y) :
    rank2 fmi r1 c = ⟨rank fmi r1.x c, rank fmi r1.x c⟩ ∧
    rank2 fmi r2 c = ⟨0, rank fmi r2.y c⟩ ∧
    rank2 fmi r3 c = ⟨rank fmi r3.x c, rank fmi r3.y c⟩ := by
  refine ⟨?_, ?_, ?_⟩
  · unfold rank2; rw [if_pos h1]
  · by_cases hxy : r2.x = r2.y
    · have hy : r2.y = -1 := by omega
      unfold rank2
      rw [if_pos hxy, h2, hy]
      simp [rank]
    · unfold rank2; rw [if_neg hxy, if_pos h2]
  · have hx1 : r3.x ≠ -1 := by omega
    have hxL : r3.x ≠ fmi.length := by omega
    unfold rank2
    rw [if_neg h3xy, if_neg hx1]
    by_cases hyL : r3.y = fmi.length
    · rw [if_pos hyL, hyL]
      have hLneg : ¬ (fmi.length = -1) := by omega
      have hcnt : rank fmi fmi.length c = fmi.count c := by
        unfold rank; rw [if_neg hLneg, if_pos rfl]
      rw [hcnt]
    · rw [if_neg hyL]
      have hy1 : r3.y ≠ -1 := by omega
      unfold RankDictionary.rankRange rank
      simp only [hx1, hxL, hy1, hyL, if_false]
      split_ifs <;> rfl

theorem C8_rank_range_wrapper_witness :
    rank2 fmi0 ⟨2, 2⟩ 0 = ⟨rank fmi0 (Range.mk 2 2).x 0, rank fmi0 (Range.mk 2 2).x 0⟩ ∧
    rank2 fmi0 ⟨-1, 1⟩ 0 = ⟨0, rank fmi0 (Range.mk (-1) 1).y 0⟩ ∧
    rank2 fmi0 ⟨0, 1⟩ 0 = ⟨rank fmi0 (Range.mk 0 1).x 0, rank fmi0 (Range.mk 0 1).y 0⟩ :=
  C8_rank_range_wrapper fmi0 0 ⟨2, 2⟩ ⟨-1, 1⟩ ⟨0, 1⟩ (by decide) (by decide)
    (by decide) (by decide) (by decide) (by decide) (by decide)

/-- C9: FM-index rank is monotone over the logical index space `[-1, length]`,
under the hypotheses that the underlying dictionary rank is monotone, is
zero at `-1`, and that `count c` is the dictionary's total for `c`. -/
theorem C9_rank_monotone (fmi : fm_index) (c : ℕ) (k1 k2 : ℤ)
    (hmono : ∀ a b : ℤ, a ≤ b → fmi.rank_dict.rank a c ≤ fmi.rank_dict.rank b c)
    (hzero : fmi.rank_dict.rank (-1) c = 0)
    (hcount : fmi.count c = fmi.rank_dict.rank (fmi.length - 1) c)
    (h1 : -1 ≤ k1) (h12 : k1 ≤ k2) (h2 : k2 ≤ fmi.length) :
    rank fmi k1 c ≤ rank fmi k2 c := by
  rw [rank_eq_rank_adjF fmi c hzero hcount k1, rank_eq_rank_adjF fmi c hzero hcount k2]
  exact hmono _ _ (adjF_mono fmi k1 k2 h1 h12 h2)

theorem C9_rank_monotone_witness :
    rank fmi0 (-1) 1 ≤ rank fmi0 2 1 :=
  C9_rank_monotone fmi0 1 (-1) 2 (fun a b h => le_refl 0) rfl rfl
    (by decide) (by decide) (by decide)

/-- Backward search on the reversed pattern coincides with the forward scan:
with `k` indices left to process, `matchAux` on `fun i => p (n - 1 - i)`
mirrors `match_reverseAux` on `p` starting at index `n - k`. -/
lemma matchAux_rev_eq (fmi : fm_index) (p : ℕ → ℕ) (n : ℕ) :
    ∀ k, k ≤ n → ∀ range,
      matchAux fmi (fun i => p (n - 1 - i)) k range =
      match_reverseAux fmi p (n - k) k range := by
  intro k
  induction k with
  | zero => intro _ range; rfl
  | succ m ih =>
    intro hk range
    simp only [matchAux, match_reverseAux]
    have hidx : n - 1 - m = n - (m + 1) := by omega
    have hnext : n - (m + 1) + 1 = n - m := by omega
    rw [hidx, ih (by omega), hnext]

/-- C5: `match_reverse fmi p n`, scanning `p` forward under the same
range-update rule, equals `match` on the reversed pattern invoked through
the default-range overload (full range `[0, length]`). -/
theorem C5_match_reverse_eq_match_reversed (fmi : fm_index) (p : ℕ → ℕ) (n : ℕ) :
    match_reverse fmi p n = fm_match0 fmi (fun i => p (n - 1 - i)) n := by
  unfold match_reverse fm_match0 fm_match
  have h := matchAux_rev_eq fmi p n n (le_refl n) ⟨0, fmi.length⟩
  rw [Nat.sub_self] at h
  exact h.symm

/-- If some pattern index below `k` holds a symbol with code above 3, the
backward-search loop ends with an out-of-order (empty) range. -/
lemma matchAux_bad_symbol (fmi : fm_index) (pattern : ℕ → ℕ) :
    ∀ k range, (∃ i, i < k ∧ 3 < pattern i) →
      (matchAux fmi pattern k range).y < (matchAux fmi pattern k range).x := by
  intro k
  induction k with
  | zero =>
    rintro range ⟨i, hi, -⟩
    exact absurd hi (Nat.not_lt_zero i)
  | succ m ih =>
    rintro range ⟨i, hi, hc⟩
    by_cases hxy : range.x ≤ range.y
    · by_cases hbad : 3 < pattern m
      · simp [matchAux, hxy, hbad]
      · have him : i ≠ m := fun he => hbad (he ▸ hc)
        simp only [matchAux]
        rw [if_pos hxy, if_neg hbad]
        exact ih _ ⟨i, by omega, hc⟩
    · simp only [matchAux]
      rw [if_neg hxy]
      omega

/-- If some pattern index in `[i0, i0 + fuel)` holds a symbol with code
above 3, the forward-search loop ends with an out-of-order (empty) range. -/
lemma match_reverseAux_bad_symbol (fmi : fm_index) (pattern : ℕ → ℕ) :
    ∀ fuel i0 range, (∃ i, i0 ≤ i ∧ i < i0 + fuel ∧ 3 < pattern i) →
      (match_reverseAux fmi pattern i0 fuel range).y <
      (match_reverseAux fmi pattern i0 fuel range).x := by
  intro fuel
  induction fuel with
  | zero =>
    rintro i0 range ⟨i, h1, h2, -⟩
    exact absurd h2 (by omega)
  | succ m ih =>
    rintro i0 range ⟨i, h1, h2, hc⟩
    by_cases hxy : range.x ≤ range.y
    · by_cases hbad : 3 < pattern i0
      · simp [match_reverseAux, hxy, hbad]
      · have him : i ≠ i0 := fun he => hbad (he ▸ hc)
        simp only [match_reverseAux]
        rw [if_pos hxy, if_neg hbad]
        exact ih _ _ ⟨i, by omega, by omega, hc⟩
    · simp only [match_reverseAux]
      rw [if_neg hxy]
      omega

/-- C1 (counterexample): a pattern containing a symbol with code above 3
does not always make `match` return the canonical `(1, 0)` — an empty
starting range is returned as-is without ever reaching the symbol check,
and `match_reverse` can exhaust the range before the ambiguous symbol,
ending on a non-canonical empty range. -/
theorem C1_counterexample :
    3 < (fun _ : ℕ => 4) 0 ∧
    fm_match fmi0 (fun _ => 4) 1 ⟨3, 2⟩ = ⟨3, 2⟩ ∧
    fm_match fmi0 (fun _ => 4) 1 ⟨3, 2⟩ ≠ ⟨1, 0⟩ ∧
    3 < (fun i : ℕ => if i = 0 then 1 else 4) 1 ∧
    match_reverse fmi0 (fun i => if i = 0 then 1 else 4) 2 = ⟨3, 2⟩ ∧
    match_reverse fmi0 (fun i => if i = 0 then 1 else 4) 2 ≠ ⟨1, 0⟩ := by
  decide

/-- C1 (amended): for every FM-index, every starting range, and every
pattern containing a symbol with code above 3, `match` returns an empty
range (`x > y`) — though not necessarily the canonical `(1, 0)` — and
`match_reverse` likewise returns an empty range for every such pattern. -/
theorem C1_amended_empty_on_ambiguous (fmi : fm_index) (pattern : ℕ → ℕ)
    (len : ℕ) (in_range : Range)
    (h : ∃ i, i < len ∧ 3 < pattern i) :
    (fm_match fmi pattern len in_range).y < (fm_match fmi pattern len in_range).x ∧
    (match_reverse fmi pattern len).y < (match_reverse fmi pattern len).x := by
  constructor
  · exact matchAux_bad_symbol fmi pattern len in_range h
  · obtain ⟨i, hi, hc⟩ := h
    exact match_reverseAux_bad_symbol fmi pattern len 0 ⟨0, fmi.length⟩
      ⟨i, by omega, by omega, hc⟩

theorem C1_amended_empty_on_ambiguous_witness :
    (fm_match fmi0 (fun _ => 4) 1 ⟨0, 2⟩).y < (fm_match fmi0 (fun _ => 4) 1 ⟨0, 2⟩).x ∧
    (match_reverse fmi0 (fun _ => 4) 1).y < (match_reverse fmi0 (fun _ => 4) 1).x :=
  C1_amended_empty_on_ambiguous fmi0 (fun _ => 4) 1 ⟨0, 2⟩ ⟨0, by decide⟩

end nvbio
